import Mathlib

/-
Verification of the min-hamming-LSH repository.

Shallow embedding of the three source files:
  * src/min_hamming.py        (exact all-pairs search)
  * src/min_hamming_LSH.py    (Hamming distance, LSH bucketing, filtered search, aggregator)
  * src/comparison.py         (evaluation harness)

Modelling conventions:
  * A binary vector is a `List Nat` (Python `list[int]`).
  * Python exceptions (ValueError, IndexError, TypeError, ZeroDivisionError) are
    modelled with `Except String`, carrying the Python exception text.
  * Randomness (`np.random.choice`) is externalized: every function that draws a
    random Bit-Position Sample instead receives the drawn sample as an explicit
    argument, so theorems quantify over all possible draws.
  * Python `list` indexing `v[i]` appears as `v.getD i _`; every theorem restricts
    the indices to be in bounds, where the two agree.
-/

namespace MinHamming

abbrev Vec := List Nat

/-- One search result: a distance together with the winning pair of vectors, or
`none` (Python `None`) when no qualifying pair was found. -/
abbrev SearchResult := Nat × Option (Vec × Vec)

/-- The summation `sum(b1 != b2 for b1, b2 in zip(vec1, vec2))` from
`calculate_hamming_distance` (min_hamming_LSH.py line 59). -/
def hamming (vec1 vec2 : Vec) : Nat :=
  (vec1.zip vec2).countP (fun p => p.1 != p.2)

/-- min_hamming_LSH.py lines 39-59, `calculate_hamming_distance`:
raises ValueError when the lengths differ, otherwise returns the number of
positions at which the two vectors differ. -/
def calculate_hamming_distance (vec1 vec2 : Vec) : Except String Nat :=
  if vec1.length ≠ vec2.length then
    Except.error "Input vectors must have the same length."
  else
    Except.ok (hamming vec1 vec2)

/-- The index pairs visited by the nested loops
`for i in range(len(vectors)): for j in range(i + 1, len(vectors))`
(min_hamming.py lines 19-20 and min_hamming_LSH.py lines 109-110), in
visit order.  Python `range(a, b)` is `List.range' a (b - a)`. -/
def pairIndices (m : Nat) : List (Nat × Nat) :=
  (List.range m).flatMap (fun i => (List.range' (i + 1) (m - (i + 1))).map (fun j => (i, j)))

/-- The loop body shared by both searches (min_hamming.py lines 21-24 and
min_hamming_LSH.py lines 112-115): compute the distance of the pair at `ij`
and keep it when it strictly improves the current state. -/
def exactSearchStep (vectors : List Vec) (st : SearchResult) (ij : Nat × Nat) :
    Except String SearchResult := do
  let dist ← calculate_hamming_distance (vectors.getD ij.1 []) (vectors.getD ij.2 [])
  if dist < st.1 then
    pure (dist, some (vectors.getD ij.1 [], vectors.getD ij.2 []))
  else
    pure st

/-- min_hamming.py lines 4-26, `find_min_hamming_distance`: brute-force scan of
all unordered pairs.  The initial state is
`min_distance = len(vectors[0]) + 1, min_pair = None`; on an empty collection
`vectors[0]` raises IndexError. -/
def find_min_hamming_distance (vectors : List Vec) : Except String SearchResult :=
  match vectors with
  | [] => Except.error "IndexError: list index out of range"
  | v0 :: _ =>
      (pairIndices vectors.length).foldlM (exactSearchStep vectors) (v0.length + 1, none)

/-- The filter test `all(vectors[i][idx] == vectors[j][idx] for idx in indices)`
(min_hamming_LSH.py line 111). -/
def agreesAt (v1 v2 : Vec) (indices : List Nat) : Bool :=
  indices.all (fun idx => v1.getD idx 0 == v2.getD idx 0)

/-- The guarded loop body of `find_min_hamming_distance_in_group`
(min_hamming_LSH.py lines 111-115): the full Hamming distance is computed only
when the pair agrees at every filter index. -/
def groupSearchStep (vectors : List Vec) (indices : List Nat) (st : SearchResult)
    (ij : Nat × Nat) : Except String SearchResult :=
  if agreesAt (vectors.getD ij.1 []) (vectors.getD ij.2 []) indices then
    exactSearchStep vectors st ij
  else
    pure st

/-- min_hamming_LSH.py lines 92-117, `find_min_hamming_distance_in_group`:
like the exact search, but only pairs agreeing at all `indices` qualify. -/
def find_min_hamming_distance_in_group (vectors : List Vec) (indices : List Nat) :
    Except String SearchResult :=
  match vectors with
  | [] => Except.error "IndexError: list index out of range"
  | v0 :: _ =>
      (pairIndices vectors.length).foldlM (groupSearchStep vectors indices) (v0.length + 1, none)

/-- The grouping key `tuple(vec[i] for i in indices)` (min_hamming_LSH.py line 86). -/
def keyOf (indices : List Nat) (vec : Vec) : List Nat :=
  indices.map (fun i => vec.getD i 0)

/-- One step of `groups[key].append(vec)` on a `defaultdict(list)`
(min_hamming_LSH.py line 87): append `vec` to the bucket holding `key`,
creating a new bucket at the end when the key is fresh (Python dicts preserve
insertion order, so `list(groups.values())` lists buckets in first-seen order). -/
def addToGroups (key : List Nat) (vec : Vec) :
    List (List Nat × List Vec) → List (List Nat × List Vec)
  | [] => [(key, [vec])]
  | (k, g) :: rest =>
      if k = key then (k, g ++ [vec]) :: rest else (k, g) :: addToGroups key vec rest

/-- min_hamming_LSH.py lines 62-89, `classify_vectors_by_random_bits`: partition
the collection by the bit values at the sampled `indices` and return
`list(groups.values())`.  The random draw of `indices` is externalized; the
`if not vectors: return []` guard is subsumed by the empty fold. -/
def classify_vectors_by_random_bits (vectors : List Vec) (indices : List Nat) :
    List (List Vec) :=
  (vectors.foldl (fun acc vec => addToGroups (keyOf indices vec) vec acc) []).map Prod.snd

/-- Python `<` on lists of ints (lexicographic; used by `min` when tuples tie). -/
def listLt : List Nat → List Nat → Bool
  | [], [] => false
  | [], _ :: _ => true
  | _ :: _, [] => false
  | a :: as, b :: bs => if a = b then listLt as bs else decide (a < b)

/-- Python `<` on a pair of vectors (tuple comparison: first component decides
unless equal, then the second). -/
def vecPairLt (p q : Vec × Vec) : Bool :=
  if p.1 = q.1 then listLt p.2 q.2 else listLt p.1 q.1

/-- Python `<` on two results `(distance, pair_or_None)` as evaluated by `min`:
tuple comparison compares the distances first; on a tie it compares the second
components, where `None` is only comparable to `None` (comparing `None` with a
pair raises TypeError, and two `None`s are equal, hence not `<`). -/
def pyTupleLt (a b : SearchResult) : Except String Bool :=
  if a.1 = b.1 then
    match a.2, b.2 with
    | none, none => Except.ok false
    | some p, some q => Except.ok (vecPairLt p q)
    | none, some _ =>
        Except.error "TypeError: '<' not supported between instances of 'NoneType' and 'tuple'"
    | some _, none =>
        Except.error "TypeError: '<' not supported between instances of 'tuple' and 'NoneType'"
  else
    Except.ok (decide (a.1 < b.1))

/-- Python `min` on a list of results (min_hamming_LSH.py lines 149 and 166):
raises ValueError on an empty list, otherwise folds `if x < best: best = x`
keeping the first of equals, where `<` is `pyTupleLt`. -/
def pyMin (xs : List SearchResult) : Except String SearchResult :=
  match xs with
  | [] => Except.error "ValueError: min() arg is an empty sequence"
  | x :: rest =>
      rest.foldlM (fun best y => do
        let lt ← pyTupleLt y best
        pure (if lt then y else best)) x

/-- min_hamming_LSH.py lines 120-149, `find_min_hamming_distance_across_groups`:
run the in-group search on every group with the round's filter sample and
reduce with Python `min`.  The parameters `vector_length` and
`num_of_sample_bits` only feed `np.random.choice`, whose drawn result is the
externalized argument `sample_bits`. -/
def find_min_hamming_distance_across_groups (groups : List (List Vec))
    (sample_bits : List Nat) : Except String SearchResult := do
  let min_values ← groups.mapM (fun group => find_min_hamming_distance_in_group group sample_bits)
  pyMin min_values

/-- min_hamming_LSH.py lines 152-166, `find_min_hamming_using_LSH`.
The two width formulas are evaluated before any round runs:
  * `round(math.log2(m / math.log2(m)))` with `m = len(vectors)`:
    for `m = 0`, `math.log2(0)` raises ValueError (math domain error);
    for `m = 1`, `math.log2(1) = 0.0` and `1 / 0.0` raises ZeroDivisionError;
    for `m ≥ 2`, `math.log2(m) ≥ 1`, so the expression evaluates without fault.
  * `round(math.log2(n))` with `n = len(vectors[0])`: raises ValueError for `n = 0`.
On non-degenerate input the two widths only fix the sizes of the per-round
`np.random.choice` draws, which this embedding takes as the explicit list
`draws`: one `(grouping sample, filter sample)` per iteration. -/
def find_min_hamming_using_LSH (vectors : List Vec) (draws : List (List Nat × List Nat)) :
    Except String SearchResult :=
  if vectors.length = 0 then Except.error "ValueError: math domain error"
  else if vectors.length = 1 then Except.error "ZeroDivisionError: float division by zero"
  else if (vectors.getD 0 []).length = 0 then Except.error "ValueError: math domain error"
  else do
    let results ← draws.mapM (fun dr =>
      find_min_hamming_distance_across_groups
        (classify_vectors_by_random_bits vectors dr.1) dr.2)
    pyMin results

/-- comparison.py lines 39-85, `compare_result`, with the per-trial random
generation of `get_min_hamming_results` externalized: `trials` is the list of
`(exact, approximate)` distances, in trial order.  Returns the pair of printed
percentages `(percentage_of_hits, percentage_of_error)`; Python float
arithmetic on these small integer counts is modelled by `ℚ`. -/
def compare_result (trials : List (Nat × Nat)) : ℚ × ℚ :=
  let correct_counter : Nat := trials.foldl (fun c t => c + (if t.1 = t.2 then 1 else 0)) 0
  let percentage_of_hits : ℚ := (correct_counter : ℚ) / (trials.length : ℚ) * 100
  let valid_results := trials.filter (fun t => t.1 != 0)
  let percentage_of_error : ℚ :=
    if valid_results.length ≠ 0 then
      (valid_results.foldl (fun s t => s + ((t.2 : ℚ) - (t.1 : ℚ)) / (t.1 : ℚ)) 0)
        / (valid_results.length : ℚ) * 100
    else 0
  (percentage_of_hits, percentage_of_error)

/-! ### Basic lemmas about Except, hamming and the pair enumeration -/

theorem except_bind_ok {ε α β : Type} (a : α) (f : α → Except ε β) :
    (Except.ok a >>= f) = f a := rfl

theorem except_bind_error {ε α β : Type} (e : ε) (f : α → Except ε β) :
    ((Except.error e : Except ε α) >>= f) = Except.error e := rfl

theorem bne_comm_nat (a b : Nat) : (a != b) = (b != a) := by
  by_cases h : a = b
  · subst h; rfl
  · have h1 : (a != b) = true := by simp [h]
    have h2 : (b != a) = true := by simp [Ne.symm h]
    rw [h1, h2]

theorem hamming_comm : ∀ v1 v2 : Vec, hamming v1 v2 = hamming v2 v1 := by
  intro v1
  induction v1 with
  | nil => intro v2; simp [hamming, List.zip_nil_right]
  | cons a as ih =>
    intro v2
    cases v2 with
    | nil => simp [hamming, List.zip_nil_right]
    | cons b bs =>
      have h := ih bs
      simp only [hamming, List.zip_cons_cons, List.countP_cons] at h ⊢
      rw [h, bne_comm_nat a b]

theorem hamming_le_left (v1 v2 : Vec) : hamming v1 v2 ≤ v1.length := by
  refine le_trans (List.countP_le_length _) ?_
  rw [List.length_zip]
  exact Nat.min_le_left _ _

theorem hamming_eq_zero_iff : ∀ v1 v2 : Vec, v1.length = v2.length →
    (hamming v1 v2 = 0 ↔ v1 = v2) := by
  intro v1
  induction v1 with
  | nil =>
    intro v2 h
    cases v2 with
    | nil => simp [hamming]
    | cons b bs => simp at h
  | cons a as ih =>
    intro v2 h
    cases v2 with
    | nil => simp at h
    | cons b bs =>
      simp only [List.length_cons, Nat.add_right_cancel_iff] at h
      simp only [hamming, List.zip_cons_cons, List.countP_cons, Nat.add_eq_zero,
        List.cons.injEq]
      constructor
      · rintro ⟨h0, hif⟩
        have hab : a = b := by
          by_contra hne
          simp [hne] at hif
        exact ⟨hab, (ih bs h).mp h0⟩
      · rintro ⟨rfl, rfl⟩
        exact ⟨(ih _ h).mpr rfl, by simp⟩

theorem hamming_eq_range_countP : ∀ v1 v2 : Vec, v1.length = v2.length →
    hamming v1 v2 = (List.range v1.length).countP (fun i => v1.getD i 0 != v2.getD i 0) := by
  intro v1
  induction v1 with
  | nil => intro v2 h; simp [hamming]
  | cons a as ih =>
    intro v2 h
    cases v2 with
    | nil => simp at h
    | cons b bs =>
      simp only [List.length_cons, Nat.add_right_cancel_iff] at h
      simp only [hamming, List.zip_cons_cons, List.countP_cons, List.length_cons,
        List.range_succ_eq_map, List.countP_map]
      have : ((fun i => (a :: as).getD i 0 != (b :: bs).getD i 0) ∘ Nat.succ) =
          (fun i => as.getD i 0 != bs.getD i 0) := by
        funext i
        simp [Function.comp, List.getD_cons_succ]
      rw [this, List.getD_cons_zero, List.getD_cons_zero, ← hamming, ih bs h]

/-- Lexicographic order on index pairs: the visiting order of the nested loops. -/
def pairLt (p q : Nat × Nat) : Prop :=
  p.1 < q.1 ∨ (p.1 = q.1 ∧ p.2 < q.2)

theorem mem_pairIndices {m a b : Nat} : (a, b) ∈ pairIndices m ↔ a < b ∧ b < m := by
  simp only [pairIndices, List.mem_flatMap, List.mem_map, List.mem_range, List.mem_range'_1,
    Prod.mk.injEq]
  constructor
  · rintro ⟨i, him, j, ⟨h1, h2⟩, rfl, rfl⟩
    omega
  · rintro ⟨hab, hbm⟩
    exact ⟨a, by omega, b, ⟨by omega, by omega⟩, rfl, rfl⟩

theorem pairwise_lt_range' : ∀ (n s : Nat), (List.range' s n).Pairwise (· < ·) := by
  intro n
  induction n with
  | zero => intro s; exact List.Pairwise.nil
  | succ k ih =>
    intro s
    rw [List.range'_succ]
    refine List.pairwise_cons.mpr ⟨?_, ih (s + 1)⟩
    intro y hy
    have := (List.mem_range'_1).mp hy
    omega

theorem pairwise_pairIndices (m : Nat) : (pairIndices m).Pairwise pairLt := by
  rw [pairIndices, List.flatMap_def, List.pairwise_flatten]
  constructor
  · intro l hl
    rw [List.mem_map] at hl
    obtain ⟨i, _, rfl⟩ := hl
    rw [List.pairwise_map]
    exact (pairwise_lt_range' _ _).imp (fun h => Or.inr ⟨rfl, h⟩)
  · rw [List.pairwise_map]
    refine (List.pairwise_lt_range m).imp ?_
    intro i1 i2 h12 x hx y hy
    rw [List.mem_map] at hx hy
    obtain ⟨j1, _, rfl⟩ := hx
    obtain ⟨j2, _, rfl⟩ := hy
    exact Or.inl h12

/-! ### The pure minimizing fold underlying both searches -/

/-- The pure content of the `if dist < min_distance` loop: fold over candidates,
keeping the first strict improvement. -/
def foldMin {β : Type} (score : β → Nat) : Nat × Option β → List β → Nat × Option β
  | st, [] => st
  | st, p :: ps => foldMin score (if score p < st.1 then (score p, some p) else st) ps

theorem foldMin_fst_le_init {β : Type} (score : β → Nat) :
    ∀ (ps : List β) (st : Nat × Option β), (foldMin score st ps).1 ≤ st.1 := by
  intro ps
  induction ps with
  | nil => intro st; exact le_refl _
  | cons p ps ih =>
    intro st
    rw [foldMin]
    by_cases h : score p < st.1
    · rw [if_pos h]
      exact le_trans (ih _) (le_of_lt h)
    · rw [if_neg h]
      exact ih _

theorem foldMin_fst_le_score {β : Type} (score : β → Nat) :
    ∀ (ps : List β) (st : Nat × Option β), ∀ q ∈ ps, (foldMin score st ps).1 ≤ score q := by
  intro ps
  induction ps with
  | nil => intro st q hq; cases hq
  | cons p ps ih =>
    intro st q hq
    rw [foldMin]
    rcases List.mem_cons.mp hq with rfl | hq'
    · by_cases h : score q < st.1
      · rw [if_pos h]
        exact foldMin_fst_le_init score ps _
      · rw [if_neg h]
        exact le_trans (foldMin_fst_le_init score ps _) (Nat.le_of_not_lt h)
    · by_cases h : score p < st.1
      · rw [if_pos h]; exact ih _ q hq'
      · rw [if_neg h]; exact ih _ q hq'

theorem foldMin_spec {β : Type} (score : β → Nat) :
    ∀ (ps : List β) (st : Nat × Option β),
      (foldMin score st ps = st ∧ ∀ p ∈ ps, st.1 ≤ score p) ∨
      (∃ l1 p l2, ps = l1 ++ p :: l2 ∧ foldMin score st ps = (score p, some p) ∧
        score p < st.1 ∧ (∀ q ∈ l1, score p < score q) ∧ (∀ q ∈ l2, score p ≤ score q)) := by
  intro ps
  induction ps with
  | nil => intro st; exact Or.inl ⟨rfl, fun p hp => absurd hp (List.not_mem_nil p)⟩
  | cons p ps ih =>
    intro st
    rw [foldMin]
    by_cases h : score p < st.1
    · rw [if_pos h]
      rcases ih (score p, some p) with ⟨heq, hall⟩ | ⟨l1, p', l2, hdec, heq, hlt, hl1, hl2⟩
      · refine Or.inr ⟨[], p, ps, by simp, heq, h, by simp, ?_⟩
        intro q hq
        exact hall q hq
      · refine Or.inr ⟨p :: l1, p', l2, by rw [hdec]; rfl, heq, lt_trans hlt h, ?_, hl2⟩
        intro q hq
        rcases List.mem_cons.mp hq with rfl | hq'
        · exact hlt
        · exact hl1 q hq'
    · rw [if_neg h]
      rcases ih st with ⟨heq, hall⟩ | ⟨l1, p', l2, hdec, heq, hlt, hl1, hl2⟩
      · refine Or.inl ⟨heq, ?_⟩
        intro q hq
        rcases List.mem_cons.mp hq with rfl | hq'
        · exact Nat.le_of_not_lt h
        · exact hall q hq'
      · refine Or.inr ⟨p :: l1, p', l2, by rw [hdec]; rfl, heq, hlt, ?_, hl2⟩
        intro q hq
        rcases List.mem_cons.mp hq with rfl | hq'
        · exact lt_of_lt_of_le hlt (Nat.le_of_not_lt h)
        · exact hl1 q hq'

/-! ### Equivalence of the monadic loops with the pure minimizing fold -/

/-- Distance of the pair of vectors at an index pair. -/
def pairScore (v : List Vec) (ij : Nat × Nat) : Nat :=
  hamming (v.getD ij.1 []) (v.getD ij.2 [])

/-- The pair of vectors at an index pair. -/
def mapPair (v : List Vec) (ij : Nat × Nat) : Vec × Vec :=
  (v.getD ij.1 [], v.getD ij.2 [])

/-- The index pairs whose vectors agree at all filter indices. -/
def qualifying (v : List Vec) (indices : List Nat) : List (Nat × Nat) :=
  (pairIndices v.length).filter (fun ij => agreesAt (v.getD ij.1 []) (v.getD ij.2 []) indices)

theorem calculate_ok {x y : Vec} (h : x.length = y.length) :
    calculate_hamming_distance x y = Except.ok (hamming x y) := by
  simp [calculate_hamming_distance, h]

theorem getD_mem_of_lt {v : List Vec} {i : Nat} (h : i < v.length) : v.getD i [] ∈ v := by
  rw [List.getD_eq_getElem _ _ h]
  exact List.getElem_mem h

theorem filtered_foldlM_eq (v : List Vec) (n : Nat) (hlen : ∀ x ∈ v, x.length = n)
    (φ : Nat × Nat → Bool) :
    ∀ (ps : List (Nat × Nat)), (∀ p ∈ ps, p.1 < v.length ∧ p.2 < v.length) →
    ∀ (st : Nat × Option (Nat × Nat)),
      ps.foldlM (fun acc ij => if φ ij then exactSearchStep v acc ij else pure acc)
          (st.1, st.2.map (mapPair v)) =
        Except.ok ((foldMin (pairScore v) st (ps.filter φ)).1,
          (foldMin (pairScore v) st (ps.filter φ)).2.map (mapPair v)) := by
  intro ps
  induction ps with
  | nil => intro _ st; rfl
  | cons p ps ih =>
    intro hps st
    have hp := hps p (List.mem_cons_self p ps)
    have ha : (v.getD p.1 []).length = n := hlen _ (getD_mem_of_lt hp.1)
    have hb : (v.getD p.2 []).length = n := hlen _ (getD_mem_of_lt hp.2)
    have hcalc : calculate_hamming_distance (v.getD p.1 []) (v.getD p.2 []) =
        Except.ok (pairScore v p) := calculate_ok (ha.trans hb.symm)
    have hps' : ∀ q ∈ ps, q.1 < v.length ∧ q.2 < v.length :=
      fun q hq => hps q (List.mem_cons_of_mem p hq)
    simp only [List.foldlM_cons]
    by_cases hφ : φ p = true
    · rw [if_pos hφ, List.filter_cons_of_pos hφ, foldMin]
      simp only [exactSearchStep, hcalc, except_bind_ok]
      by_cases hlt : pairScore v p < st.1
      · rw [if_pos hlt, if_pos hlt]
        have : (pure (pairScore v p, some (v.getD p.1 [], v.getD p.2 [])) :
            Except String SearchResult) = Except.ok ((pairScore v p, some p).1,
              ((pairScore v p, some p) : Nat × Option (Nat × Nat)).2.map (mapPair v)) := rfl
        rw [this, except_bind_ok]
        exact ih hps' (pairScore v p, some p)
      · rw [if_neg hlt, if_neg hlt]
        have : (pure (st.1, st.2.map (mapPair v)) : Except String SearchResult) =
            Except.ok (st.1, st.2.map (mapPair v)) := rfl
        rw [this, except_bind_ok]
        exact ih hps' st
    · rw [if_neg hφ, List.filter_cons_of_neg (by simpa using hφ)]
      have : (pure (st.1, st.2.map (mapPair v)) : Except String SearchResult) =
          Except.ok (st.1, st.2.map (mapPair v)) := rfl
      rw [this, except_bind_ok]
      exact ih hps' st

theorem mem_pairIndices_bounds {m : Nat} {p : Nat × Nat} (hp : p ∈ pairIndices m) :
    p.1 < m ∧ p.2 < m := by
  obtain ⟨a, b⟩ := p
  have := mem_pairIndices.mp hp
  exact ⟨by omega, by omega⟩

theorem find_min_eq (v0 : Vec) (rest : List Vec) (n : Nat)
    (hlen : ∀ x ∈ v0 :: rest, x.length = n) :
    find_min_hamming_distance (v0 :: rest) =
      Except.ok
        ((foldMin (pairScore (v0 :: rest)) (n + 1, none) (pairIndices (v0 :: rest).length)).1,
          (foldMin (pairScore (v0 :: rest)) (n + 1, none)
            (pairIndices (v0 :: rest).length)).2.map (mapPair (v0 :: rest))) := by
  have h0 : v0.length = n := hlen v0 (List.mem_cons_self _ _)
  have hstep : (fun (acc : SearchResult) (ij : Nat × Nat) =>
      if (fun _ : Nat × Nat => true) ij then exactSearchStep (v0 :: rest) acc ij else pure acc) =
      exactSearchStep (v0 :: rest) := by
    funext acc ij
    simp
  have h := filtered_foldlM_eq (v0 :: rest) n hlen (fun _ => true)
    (pairIndices (v0 :: rest).length)
    (fun p hp => mem_pairIndices_bounds hp) (n + 1, none)
  rw [hstep, List.filter_true] at h
  simp only [find_min_hamming_distance, h0]
  exact h

theorem in_group_eq (v0 : Vec) (rest : List Vec) (indices : List Nat) (n : Nat)
    (hlen : ∀ x ∈ v0 :: rest, x.length = n) :
    find_min_hamming_distance_in_group (v0 :: rest) indices =
      Except.ok
        ((foldMin (pairScore (v0 :: rest)) (n + 1, none) (qualifying (v0 :: rest) indices)).1,
          (foldMin (pairScore (v0 :: rest)) (n + 1, none)
            (qualifying (v0 :: rest) indices)).2.map (mapPair (v0 :: rest))) := by
  have h0 : v0.length = n := hlen v0 (List.mem_cons_self _ _)
  have hstep : (fun (acc : SearchResult) (ij : Nat × Nat) =>
      if (fun ij : Nat × Nat => agreesAt ((v0 :: rest).getD ij.1 [])
          ((v0 :: rest).getD ij.2 []) indices) ij
        then exactSearchStep (v0 :: rest) acc ij else pure acc) =
      groupSearchStep (v0 :: rest) indices := rfl
  have h := filtered_foldlM_eq (v0 :: rest) n hlen
    (fun ij => agreesAt ((v0 :: rest).getD ij.1 []) ((v0 :: rest).getD ij.2 []) indices)
    (pairIndices (v0 :: rest).length)
    (fun p hp => mem_pairIndices_bounds hp) (n + 1, none)
  rw [hstep] at h
  simp only [find_min_hamming_distance_in_group, h0]
  exact h

/-! ### Claims about the Distance Metric and Exact Search -/

/-- Claim C7: `calculate_hamming_distance` fails with the ValueError exactly when
the two vectors have different lengths, and otherwise returns, without error,
the count of positions at which the two vectors differ. -/
theorem calculate_hamming_distance_spec (vec1 vec2 : Vec) :
    (calculate_hamming_distance vec1 vec2 =
        Except.error "Input vectors must have the same length."
      ↔ vec1.length ≠ vec2.length) ∧
    (vec1.length = vec2.length →
      calculate_hamming_distance vec1 vec2 =
        Except.ok ((List.range vec1.length).countP
          (fun i => vec1.getD i 0 != vec2.getD i 0))) := by
  constructor
  · constructor
    · intro h hlen
      rw [calculate_ok hlen] at h
      exact absurd h (by simp)
    · intro hne
      simp [calculate_hamming_distance, hne]
  · intro hlen
    rw [calculate_ok hlen, hamming_eq_range_countP vec1 vec2 hlen]

theorem calculate_hamming_distance_spec_witness :
    calculate_hamming_distance [0, 1, 1, 0] [1, 1, 0, 0] =
      Except.ok ((List.range ([0, 1, 1, 0] : Vec).length).countP
        (fun i => ([0, 1, 1, 0] : Vec).getD i 0 != ([1, 1, 0, 0] : Vec).getD i 0)) ∧
    calculate_hamming_distance [0, 1, 1, 0] [1, 1, 0, 0, 1] =
      Except.error "Input vectors must have the same length." :=
  ⟨(calculate_hamming_distance_spec [0, 1, 1, 0] [1, 1, 0, 0]).2 rfl,
   (calculate_hamming_distance_spec [0, 1, 1, 0] [1, 1, 0, 0, 1]).1.mpr (by decide)⟩

/-- Claim C8: for equal-length vectors the Distance Metric is symmetric and
returns zero exactly for identical vectors. -/
theorem calculate_hamming_distance_symm_zero (a b : Vec) (h : a.length = b.length) :
    calculate_hamming_distance a b = calculate_hamming_distance b a ∧
    (calculate_hamming_distance a b = Except.ok 0 ↔ a = b) := by
  constructor
  · rw [calculate_ok h, calculate_ok h.symm, hamming_comm]
  · rw [calculate_ok h]
    have hok : (Except.ok (hamming a b) : Except String Nat) = Except.ok 0 ↔
        hamming a b = 0 := by
      constructor
      · intro hok
        injection hok
      · intro h0
        rw [h0]
    rw [hok]
    exact hamming_eq_zero_iff a b h

theorem calculate_hamming_distance_symm_zero_witness :
    calculate_hamming_distance [1, 0, 1] [1, 1, 1] = calculate_hamming_distance [1, 1, 1] [1, 0, 1] ∧
    (calculate_hamming_distance [1, 0, 1] [1, 1, 1] = Except.ok 0 ↔
      ([1, 0, 1] : Vec) = [1, 1, 1]) :=
  calculate_hamming_distance_symm_zero [1, 0, 1] [1, 1, 1] rfl

/-- Claim C9: on a collection containing exactly one vector of length `n`,
Exact Search returns the sentinel `(n + 1, no pair)` without raising. -/
theorem exact_search_singleton_sentinel (v : Vec) :
    find_min_hamming_distance [v] = Except.ok (v.length + 1, none) := rfl

/-- Claim C2: Exact Search returns a pair of vectors from the collection whose
Hamming distance equals the reported distance, no unordered pair has a strictly
smaller distance, and among ties the first minimal pair in collection order
(outer index, then inner index) wins. -/
theorem find_min_hamming_distance_correct (v : List Vec) (n : Nat)
    (hlen : ∀ x ∈ v, x.length = n) (hm : 2 ≤ v.length) :
    ∃ i j, i < j ∧ j < v.length ∧
      find_min_hamming_distance v =
        Except.ok (hamming (v.getD i []) (v.getD j []), some (v.getD i [], v.getD j [])) ∧
      (∀ i' j', i' < j' → j' < v.length →
        hamming (v.getD i []) (v.getD j []) ≤ hamming (v.getD i' []) (v.getD j' [])) ∧
      (∀ i' j', i' < j' → j' < v.length → (i' < i ∨ (i' = i ∧ j' < j)) →
        hamming (v.getD i []) (v.getD j []) < hamming (v.getD i' []) (v.getD j' [])) := by
  obtain ⟨v0, rest, rfl⟩ : ∃ v0 rest, v = v0 :: rest := by
    cases v with
    | nil => simp at hm
    | cons a l => exact ⟨a, l, rfl⟩
  have heq := find_min_eq v0 rest n hlen
  rcases foldMin_spec (pairScore (v0 :: rest)) (pairIndices (v0 :: rest).length)
      (n + 1, none) with ⟨_, hall⟩ | ⟨l1, p, l2, hdec, hfm, _, hl1, hl2⟩
  · exfalso
    have h01 : ((0, 1) : Nat × Nat) ∈ pairIndices (v0 :: rest).length :=
      mem_pairIndices.mpr ⟨by omega, by omega⟩
    have hge := hall _ h01
    have hle : pairScore (v0 :: rest) (0, 1) ≤ n := by
      have hb := hamming_le_left ((v0 :: rest).getD 0 []) ((v0 :: rest).getD 1 [])
      have h0 : ((v0 :: rest).getD 0 []).length = n := hlen _ (getD_mem_of_lt (by omega))
      rw [h0] at hb
      exact hb
    simp only at hge
    omega
  · obtain ⟨i, j⟩ := p
    have hpmem : ((i, j) : Nat × Nat) ∈ pairIndices (v0 :: rest).length := by
      rw [hdec]
      exact List.mem_append_right _ (List.mem_cons_self _ _)
    have hij := mem_pairIndices.mp hpmem
    have hpw := pairwise_pairIndices (v0 :: rest).length
    rw [hdec, List.pairwise_append] at hpw
    have hcross : ∀ q ∈ l2, pairLt (i, j) q := (List.pairwise_cons.mp hpw.2.1).1
    refine ⟨i, j, hij.1, hij.2, ?_, ?_, ?_⟩
    · rw [heq, hfm]
      rfl
    · intro i' j' hij' hj'
      have hmem : ((i', j') : Nat × Nat) ∈ l1 ++ (i, j) :: l2 := by
        rw [← hdec]
        exact mem_pairIndices.mpr ⟨hij', hj'⟩
      rcases List.mem_append.mp hmem with hin1 | hin2
      · exact le_of_lt (hl1 _ hin1)
      · rcases List.mem_cons.mp hin2 with heq2 | hin2'
        · have h1 : i' = i := congrArg Prod.fst heq2
          have h2 : j' = j := congrArg Prod.snd heq2
          rw [h1, h2]
        · exact hl2 _ hin2'
    · intro i' j' hij' hj' hbefore
      have hmem : ((i', j') : Nat × Nat) ∈ l1 ++ (i, j) :: l2 := by
        rw [← hdec]
        exact mem_pairIndices.mpr ⟨hij', hj'⟩
      rcases List.mem_append.mp hmem with hin1 | hin2
      · exact hl1 _ hin1
      · rcases List.mem_cons.mp hin2 with heq2 | hin2'
        · exfalso
          have h1 : i' = i := congrArg Prod.fst heq2
          have h2 : j' = j := congrArg Prod.snd heq2
          omega
        · exfalso
          rcases hcross _ hin2' with hc | ⟨hc1, hc2⟩
          · simp only at hc
            omega
          · simp only at hc1 hc2
            omega

theorem find_min_hamming_distance_correct_witness :
    ∃ i j, i < j ∧ j < ([[0, 0, 0, 0], [0, 0, 0, 1], [1, 1, 1, 1]] : List Vec).length ∧
      find_min_hamming_distance [[0, 0, 0, 0], [0, 0, 0, 1], [1, 1, 1, 1]] =
        Except.ok
          (hamming (([[0, 0, 0, 0], [0, 0, 0, 1], [1, 1, 1, 1]] : List Vec).getD i [])
              (([[0, 0, 0, 0], [0, 0, 0, 1], [1, 1, 1, 1]] : List Vec).getD j []),
            some ((([[0, 0, 0, 0], [0, 0, 0, 1], [1, 1, 1, 1]] : List Vec).getD i []),
              (([[0, 0, 0, 0], [0, 0, 0, 1], [1, 1, 1, 1]] : List Vec).getD j []))) ∧
      (∀ i' j', i' < j' → j' < ([[0, 0, 0, 0], [0, 0, 0, 1], [1, 1, 1, 1]] : List Vec).length →
        hamming (([[0, 0, 0, 0], [0, 0, 0, 1], [1, 1, 1, 1]] : List Vec).getD i [])
            (([[0, 0, 0, 0], [0, 0, 0, 1], [1, 1, 1, 1]] : List Vec).getD j []) ≤
          hamming (([[0, 0, 0, 0], [0, 0, 0, 1], [1, 1, 1, 1]] : List Vec).getD i' [])
            (([[0, 0, 0, 0], [0, 0, 0, 1], [1, 1, 1, 1]] : List Vec).getD j' [])) ∧
      (∀ i' j', i' < j' → j' < ([[0, 0, 0, 0], [0, 0, 0, 1], [1, 1, 1, 1]] : List Vec).length →
        (i' < i ∨ (i' = i ∧ j' < j)) →
        hamming (([[0, 0, 0, 0], [0, 0, 0, 1], [1, 1, 1, 1]] : List Vec).getD i [])
            (([[0, 0, 0, 0], [0, 0, 0, 1], [1, 1, 1, 1]] : List Vec).getD j []) <
          hamming (([[0, 0, 0, 0], [0, 0, 0, 1], [1, 1, 1, 1]] : List Vec).getD i' [])
            (([[0, 0, 0, 0], [0, 0, 0, 1], [1, 1, 1, 1]] : List Vec).getD j' [])) :=
  find_min_hamming_distance_correct [[0, 0, 0, 0], [0, 0, 0, 1], [1, 1, 1, 1]] 4
    (by decide) (by decide)

/-! ### Claim C5: Group-Filtered Search -/

/-- Claim C5: on one group and one filter sample, `find_min_hamming_distance_in_group`
computes full distances only for pairs agreeing at all filter positions: it returns
the minimal-distance qualifying pair, or the sentinel `(n + 1, no pair)` when no pair
in the group agrees at all filter positions. -/
theorem find_min_hamming_distance_in_group_spec (g : List Vec) (indices : List Nat) (n : Nat)
    (hne : g ≠ []) (hlen : ∀ x ∈ g, x.length = n) (hidx : ∀ i ∈ indices, i < n) :
    ∃ r, find_min_hamming_distance_in_group g indices = Except.ok r ∧
      (((∀ i j, i < j → j < g.length →
          agreesAt (g.getD i []) (g.getD j []) indices = false) ∧ r = (n + 1, none)) ∨
       (∃ i j, i < j ∧ j < g.length ∧ agreesAt (g.getD i []) (g.getD j []) indices = true ∧
         r = (hamming (g.getD i []) (g.getD j []), some (g.getD i [], g.getD j [])) ∧
         (∀ i' j', i' < j' → j' < g.length →
           agreesAt (g.getD i' []) (g.getD j' []) indices = true →
           hamming (g.getD i []) (g.getD j []) ≤ hamming (g.getD i' []) (g.getD j' [])))) := by
  clear hidx
  obtain ⟨v0, rest, rfl⟩ : ∃ v0 rest, g = v0 :: rest := by
    cases g with
    | nil => exact absurd rfl hne
    | cons a l => exact ⟨a, l, rfl⟩
  have heq := in_group_eq v0 rest indices n hlen
  have hqual : ∀ q : Nat × Nat, q ∈ qualifying (v0 :: rest) indices ↔
      (q.1 < q.2 ∧ q.2 < (v0 :: rest).length) ∧
        agreesAt ((v0 :: rest).getD q.1 []) ((v0 :: rest).getD q.2 []) indices = true := by
    intro q
    obtain ⟨a, b⟩ := q
    rw [qualifying, List.mem_filter, mem_pairIndices]
  have hscore : ∀ q : Nat × Nat, q.1 < (v0 :: rest).length →
      pairScore (v0 :: rest) q ≤ n := by
    intro q hq
    have hb := hamming_le_left ((v0 :: rest).getD q.1 []) ((v0 :: rest).getD q.2 [])
    have h0 : ((v0 :: rest).getD q.1 []).length = n := hlen _ (getD_mem_of_lt hq)
    rw [h0] at hb
    exact hb
  rcases foldMin_spec (pairScore (v0 :: rest)) (qualifying (v0 :: rest) indices)
      (n + 1, none) with ⟨hfm, hall⟩ | ⟨l1, p, l2, hdec, hfm, _, hl1, hl2⟩
  · refine ⟨(n + 1, none), by rw [heq, hfm]; rfl, Or.inl ⟨?_, rfl⟩⟩
    intro i j hij hj
    by_contra hcon
    have htrue : agreesAt ((v0 :: rest).getD i []) ((v0 :: rest).getD j []) indices = true := by
      cases hval : agreesAt ((v0 :: rest).getD i []) ((v0 :: rest).getD j []) indices
      · exact absurd hval hcon
      · rfl
    have hmem : ((i, j) : Nat × Nat) ∈ qualifying (v0 :: rest) indices :=
      (hqual (i, j)).mpr ⟨⟨hij, hj⟩, htrue⟩
    have hge := hall _ hmem
    have hle := hscore (i, j) (by omega)
    simp only at hge hle
    omega
  · obtain ⟨i, j⟩ := p
    have hpmem : ((i, j) : Nat × Nat) ∈ qualifying (v0 :: rest) indices := by
      rw [hdec]
      exact List.mem_append_right _ (List.mem_cons_self _ _)
    obtain ⟨⟨hij, hj⟩, hagree⟩ := (hqual (i, j)).mp hpmem
    refine ⟨(hamming ((v0 :: rest).getD i []) ((v0 :: rest).getD j []),
        some ((v0 :: rest).getD i [], (v0 :: rest).getD j [])),
      by rw [heq, hfm]; rfl, Or.inr ⟨i, j, hij, hj, hagree, rfl, ?_⟩⟩
    intro i' j' hij' hj' hagree'
    have hmem : ((i', j') : Nat × Nat) ∈ l1 ++ (i, j) :: l2 := by
      rw [← hdec]
      exact (hqual (i', j')).mpr ⟨⟨hij', hj'⟩, hagree'⟩
    rcases List.mem_append.mp hmem with hin1 | hin2
    · exact le_of_lt (hl1 _ hin1)
    · rcases List.mem_cons.mp hin2 with heq2 | hin2'
      · have h1 : i' = i := congrArg Prod.fst heq2
        have h2 : j' = j := congrArg Prod.snd heq2
        rw [h1, h2]
      · exact hl2 _ hin2'

theorem find_min_hamming_distance_in_group_spec_witness :
    ∃ r, find_min_hamming_distance_in_group [[0, 0, 1], [0, 1, 1], [1, 1, 1]] [0] =
        Except.ok r ∧
      (((∀ i j, i < j → j < ([[0, 0, 1], [0, 1, 1], [1, 1, 1]] : List Vec).length →
          agreesAt (([[0, 0, 1], [0, 1, 1], [1, 1, 1]] : List Vec).getD i [])
            (([[0, 0, 1], [0, 1, 1], [1, 1, 1]] : List Vec).getD j []) [0] = false) ∧
          r = (3 + 1, none)) ∨
       (∃ i j, i < j ∧ j < ([[0, 0, 1], [0, 1, 1], [1, 1, 1]] : List Vec).length ∧
         agreesAt (([[0, 0, 1], [0, 1, 1], [1, 1, 1]] : List Vec).getD i [])
           (([[0, 0, 1], [0, 1, 1], [1, 1, 1]] : List Vec).getD j []) [0] = true ∧
         r = (hamming (([[0, 0, 1], [0, 1, 1], [1, 1, 1]] : List Vec).getD i [])
             (([[0, 0, 1], [0, 1, 1], [1, 1, 1]] : List Vec).getD j []),
           some ((([[0, 0, 1], [0, 1, 1], [1, 1, 1]] : List Vec).getD i []),
             (([[0, 0, 1], [0, 1, 1], [1, 1, 1]] : List Vec).getD j []))) ∧
         (∀ i' j', i' < j' → j' < ([[0, 0, 1], [0, 1, 1], [1, 1, 1]] : List Vec).length →
           agreesAt (([[0, 0, 1], [0, 1, 1], [1, 1, 1]] : List Vec).getD i' [])
             (([[0, 0, 1], [0, 1, 1], [1, 1, 1]] : List Vec).getD j' []) [0] = true →
           hamming (([[0, 0, 1], [0, 1, 1], [1, 1, 1]] : List Vec).getD i [])
               (([[0, 0, 1], [0, 1, 1], [1, 1, 1]] : List Vec).getD j []) ≤
             hamming (([[0, 0, 1], [0, 1, 1], [1, 1, 1]] : List Vec).getD i' [])
               (([[0, 0, 1], [0, 1, 1], [1, 1, 1]] : List Vec).getD j' [])))) :=
  find_min_hamming_distance_in_group_spec [[0, 0, 1], [0, 1, 1], [1, 1, 1]] [0] 3
    (by decide) (by decide) (by decide)

/-! ### Bucketizer invariants -/

/-- Well-formedness of the bucket accumulator after processing the prefix `pre`:
buckets are non-empty order-preserving selections of `pre`, each keyed by the
common key of its members, and keys are pairwise distinct. -/
def AccWF (indices : List Nat) (pre : List Vec) (acc : List (List Nat × List Vec)) : Prop :=
  (∀ q ∈ acc, q.2 ≠ [] ∧ q.2.Sublist pre ∧ ∀ x ∈ q.2, keyOf indices x = q.1) ∧
  List.Pairwise (fun q1 q2 => q1.1 ≠ q2.1) acc

theorem addToGroups_fst (key : List Nat) (vec : Vec) :
    ∀ acc, ∀ q ∈ addToGroups key vec acc, q.1 = key ∨ ∃ e ∈ acc, q.1 = e.1 := by
  intro acc
  induction acc with
  | nil =>
    intro q hq
    rw [addToGroups] at hq
    rcases List.mem_singleton.mp hq with rfl
    exact Or.inl rfl
  | cons e rest ih =>
    intro q hq
    obtain ⟨k, g⟩ := e
    rw [addToGroups] at hq
    by_cases hk : k = key
    · rw [if_pos hk] at hq
      rcases List.mem_cons.mp hq with rfl | h'
      · exact Or.inr ⟨(k, g), List.mem_cons_self _ _, rfl⟩
      · exact Or.inr ⟨q, List.mem_cons_of_mem _ h', rfl⟩
    · rw [if_neg hk] at hq
      rcases List.mem_cons.mp hq with rfl | h'
      · exact Or.inr ⟨(k, g), List.mem_cons_self _ _, rfl⟩
      · rcases ih q h' with h1 | ⟨e', he', h2⟩
        · exact Or.inl h1
        · exact Or.inr ⟨e', List.mem_cons_of_mem _ he', h2⟩

theorem addToGroups_wf (indices : List Nat) (pre : List Vec) (vec : Vec) :
    ∀ acc, AccWF indices pre acc →
      AccWF indices (pre ++ [vec]) (addToGroups (keyOf indices vec) vec acc) := by
  intro acc
  induction acc with
  | nil =>
    intro _
    constructor
    · intro q hq
      rw [addToGroups] at hq
      rcases List.mem_singleton.mp hq with rfl
      exact ⟨by simp, List.sublist_append_right pre [vec], by simp⟩
    · rw [addToGroups]
      exact List.pairwise_singleton _ _
  | cons e rest ih =>
    intro hwf
    obtain ⟨k, g⟩ := e
    obtain ⟨hq, hpw⟩ := hwf
    obtain ⟨hgne, hgsub, hgkey⟩ := hq (k, g) (List.mem_cons_self _ _)
    have hrest_wf : AccWF indices pre rest :=
      ⟨fun q hq' => hq q (List.mem_cons_of_mem _ hq'), (List.pairwise_cons.mp hpw).2⟩
    rw [addToGroups]
    by_cases hk : k = keyOf indices vec
    · rw [if_pos hk]
      constructor
      · intro q hq'
        rcases List.mem_cons.mp hq' with rfl | h'
        · refine ⟨by simp, hgsub.append (List.Sublist.refl [vec]), ?_⟩
          intro x hx
          rcases List.mem_append.mp hx with hx1 | hx2
          · exact hgkey x hx1
          · rcases List.mem_singleton.mp hx2 with rfl
            exact hk.symm
        · obtain ⟨h1, h2, h3⟩ := hq q (List.mem_cons_of_mem _ h')
          exact ⟨h1, h2.trans (List.sublist_append_left pre [vec]), h3⟩
      · rw [List.pairwise_cons]
        refine ⟨(List.pairwise_cons.mp hpw).1, (List.pairwise_cons.mp hpw).2⟩
    · rw [if_neg hk]
      obtain ⟨ih1, ih2⟩ := ih hrest_wf
      constructor
      · intro q hq'
        rcases List.mem_cons.mp hq' with rfl | h'
        · exact ⟨hgne, hgsub.trans (List.sublist_append_left pre [vec]), hgkey⟩
        · exact ih1 q h'
      · rw [List.pairwise_cons]
        refine ⟨?_, ih2⟩
        intro q hq'
        rcases addToGroups_fst (keyOf indices vec) vec rest q hq' with h1 | ⟨e', he', h2⟩
        · rw [h1]
          exact hk
        · rw [h2]
          exact (List.pairwise_cons.mp hpw).1 e' he'

theorem classify_fold_wf (indices : List Nat) :
    ∀ (l : List Vec) (acc : List (List Nat × List Vec)) (pre : List Vec),
      AccWF indices pre acc →
      AccWF indices (pre ++ l)
        (l.foldl (fun acc vec => addToGroups (keyOf indices vec) vec acc) acc) := by
  intro l
  induction l with
  | nil =>
    intro acc pre h
    rw [List.foldl_nil, List.append_nil]
    exact h
  | cons vec l ih =>
    intro acc pre h
    rw [List.foldl_cons]
    have h3 := ih _ (pre ++ [vec]) (addToGroups_wf indices pre vec acc h)
    rwa [List.append_assoc, List.singleton_append] at h3

theorem addToGroups_flatten (key : List Nat) (vec : Vec) :
    ∀ acc, ((addToGroups key vec acc).map Prod.snd).flatten.Perm
      (vec :: (acc.map Prod.snd).flatten) := by
  intro acc
  induction acc with
  | nil =>
    rw [addToGroups]
    simp
  | cons e rest ih =>
    obtain ⟨k, g⟩ := e
    rw [addToGroups]
    by_cases hk : k = key
    · rw [if_pos hk]
      simp only [List.map_cons, List.flatten_cons]
      have h1 : (g ++ [vec]) ++ ((rest.map Prod.snd).flatten) =
          g ++ (vec :: (rest.map Prod.snd).flatten) := by
        rw [List.append_assoc, List.singleton_append]
      rw [h1]
      exact List.perm_middle
    · rw [if_neg hk]
      simp only [List.map_cons, List.flatten_cons]
      exact (List.Perm.append_left g ih).trans List.perm_middle

theorem classify_fold_flatten (indices : List Nat) :
    ∀ (l : List Vec) (acc : List (List Nat × List Vec)),
      ((l.foldl (fun acc vec => addToGroups (keyOf indices vec) vec acc) acc).map
        Prod.snd).flatten.Perm ((acc.map Prod.snd).flatten ++ l) := by
  intro l
  induction l with
  | nil =>
    intro acc
    rw [List.foldl_nil, List.append_nil]
  | cons vec l ih =>
    intro acc
    rw [List.foldl_cons]
    refine (ih _).trans ?_
    refine (List.Perm.append_right l (addToGroups_flatten (keyOf indices vec) vec acc)).trans ?_
    rw [List.cons_append]
    exact List.perm_middle.symm

theorem pairwise_key_unique :
    ∀ (acc : List (List Nat × List Vec)),
      List.Pairwise (fun q1 q2 => q1.1 ≠ q2.1) acc →
      ∀ e1 ∈ acc, ∀ e2 ∈ acc, e1.1 = e2.1 → e1 = e2 := by
  intro acc
  induction acc with
  | nil =>
    intro _ e1 h1
    exact absurd h1 (List.not_mem_nil e1)
  | cons e rest ih =>
    intro h e1 h1 e2 h2 hk
    obtain ⟨hhead, htail⟩ := List.pairwise_cons.mp h
    rcases List.mem_cons.mp h1 with rfl | h1'
    · rcases List.mem_cons.mp h2 with rfl | h2'
      · rfl
      · exact absurd hk (hhead _ h2')
    · rcases List.mem_cons.mp h2 with rfl | h2'
      · exact absurd hk.symm (hhead _ h1')
      · exact ih htail e1 h1' e2 h2' hk

theorem classify_acc_wf (v : List Vec) (indices : List Nat) :
    AccWF indices v (v.foldl (fun acc vec => addToGroups (keyOf indices vec) vec acc) []) := by
  have h := classify_fold_wf indices v [] []
    ⟨fun q hq => absurd hq (List.not_mem_nil q), List.Pairwise.nil⟩
  rwa [List.nil_append] at h

theorem classify_flatten_perm (v : List Vec) (indices : List Nat) :
    (classify_vectors_by_random_bits v indices).flatten.Perm v := by
  have h := classify_fold_flatten indices v []
  simpa [classify_vectors_by_random_bits] using h

theorem classify_group_sublist (v : List Vec) (indices : List Nat) :
    ∀ g ∈ classify_vectors_by_random_bits v indices, g ≠ [] ∧ g.Sublist v := by
  intro g hg
  rw [classify_vectors_by_random_bits, List.mem_map] at hg
  obtain ⟨e, he, rfl⟩ := hg
  obtain ⟨h1, h2, _⟩ := (classify_acc_wf v indices).1 e he
  exact ⟨h1, h2⟩

/-- Claim C6: the Bucketizer returns a partition of the collection: every group
is non-empty, the multiset union of the groups is the collection, every vector
lies in exactly one group, and two vectors share a group exactly when they
agree at all sampled positions. -/
theorem classify_vectors_partition (v : List Vec) (indices : List Nat) (n : Nat)
    (hlen : ∀ x ∈ v, x.length = n) (hidx : ∀ i ∈ indices, i < n) (hne : v ≠ []) :
    (∀ g ∈ classify_vectors_by_random_bits v indices, g ≠ []) ∧
    (classify_vectors_by_random_bits v indices).flatten.Perm v ∧
    (∀ u ∈ v, ∃! g, g ∈ classify_vectors_by_random_bits v indices ∧ u ∈ g) ∧
    (∀ u ∈ v, ∀ w ∈ v,
      ((∃ g, g ∈ classify_vectors_by_random_bits v indices ∧ u ∈ g ∧ w ∈ g) ↔
        ∀ i ∈ indices, u.getD i 0 = w.getD i 0)) := by
  clear hlen hidx hne
  obtain ⟨hwf1, hwf2⟩ := classify_acc_wf v indices
  have hperm := classify_flatten_perm v indices
  have hfind : ∀ u ∈ v, ∃ e, e ∈ v.foldl (fun acc vec => addToGroups (keyOf indices vec) vec acc) []
      ∧ u ∈ e.2 := by
    intro u hu
    have hu' : u ∈ (classify_vectors_by_random_bits v indices).flatten :=
      hperm.mem_iff.mpr hu
    rw [List.mem_flatten] at hu'
    obtain ⟨g, hg, hug⟩ := hu'
    rw [classify_vectors_by_random_bits, List.mem_map] at hg
    obtain ⟨e, he, rfl⟩ := hg
    exact ⟨e, he, hug⟩
  have hkey : ∀ e ∈ v.foldl (fun acc vec => addToGroups (keyOf indices vec) vec acc) [],
      ∀ x ∈ e.2, keyOf indices x = e.1 := fun e he => (hwf1 e he).2.2
  refine ⟨fun g hg => (classify_group_sublist v indices g hg).1, hperm, ?_, ?_⟩
  · intro u hu
    obtain ⟨e, he, hue⟩ := hfind u hu
    refine ⟨e.2, ⟨?_, hue⟩, ?_⟩
    · rw [classify_vectors_by_random_bits, List.mem_map]
      exact ⟨e, he, rfl⟩
    · intro g' ⟨hg', hug'⟩
      rw [classify_vectors_by_random_bits, List.mem_map] at hg'
      obtain ⟨e', he', rfl⟩ := hg'
      have hk : e'.1 = e.1 := by
        rw [← hkey e' he' u hug', ← hkey e he u hue]
      exact congrArg Prod.snd (pairwise_key_unique _ hwf2 e' he' e he hk)
  · intro u hu w hw
    constructor
    · rintro ⟨g, hg, hug, hwg⟩
      rw [classify_vectors_by_random_bits, List.mem_map] at hg
      obtain ⟨e, he, rfl⟩ := hg
      have hk : keyOf indices u = keyOf indices w := by
        rw [hkey e he u hug, hkey e he w hwg]
      exact List.map_eq_map_iff.mp hk
    · intro hagree
      have hk : keyOf indices u = keyOf indices w := List.map_eq_map_iff.mpr hagree
      obtain ⟨e1, he1, hue1⟩ := hfind u hu
      obtain ⟨e2, he2, hwe2⟩ := hfind w hw
      have hk12 : e1.1 = e2.1 := by
        rw [← hkey e1 he1 u hue1, ← hkey e2 he2 w hwe2]
        exact hk
      have := pairwise_key_unique _ hwf2 e1 he1 e2 he2 hk12
      refine ⟨e1.2, ?_, hue1, ?_⟩
      · rw [classify_vectors_by_random_bits, List.mem_map]
        exact ⟨e1, he1, rfl⟩
      · rw [this]
        exact hwe2

theorem classify_vectors_partition_witness :
    (∀ g ∈ classify_vectors_by_random_bits [[0, 1], [1, 1], [0, 0]] [0], g ≠ []) ∧
    (classify_vectors_by_random_bits [[0, 1], [1, 1], [0, 0]] [0]).flatten.Perm
      [[0, 1], [1, 1], [0, 0]] ∧
    (∀ u ∈ ([[0, 1], [1, 1], [0, 0]] : List Vec),
      ∃! g, g ∈ classify_vectors_by_random_bits [[0, 1], [1, 1], [0, 0]] [0] ∧ u ∈ g) ∧
    (∀ u ∈ ([[0, 1], [1, 1], [0, 0]] : List Vec),
      ∀ w ∈ ([[0, 1], [1, 1], [0, 0]] : List Vec),
      ((∃ g, g ∈ classify_vectors_by_random_bits [[0, 1], [1, 1], [0, 0]] [0] ∧ u ∈ g ∧ w ∈ g) ↔
        ∀ i ∈ ([0] : List Nat), u.getD i 0 = w.getD i 0)) :=
  classify_vectors_partition [[0, 1], [1, 1], [0, 0]] [0] 2
    (by decide) (by decide) (by decide)

/-! ### Python min over round results -/

theorem except_pure_eq {ε α : Type} (a : α) : (pure a : Except ε α) = Except.ok a := rfl

theorem pyTupleLt_ok_le {a b : SearchResult} {t : Bool} (h : pyTupleLt a b = Except.ok t) :
    (t = true → a.1 ≤ b.1) ∧ (t = false → b.1 ≤ a.1) := by
  rw [pyTupleLt] at h
  by_cases hab : a.1 = b.1
  · exact ⟨fun _ => le_of_eq hab, fun _ => le_of_eq hab.symm⟩
  · rw [if_neg hab] at h
    have ht : decide (a.1 < b.1) = t := by injection h
    constructor
    · intro h1
      rw [h1] at ht
      have := of_decide_eq_true ht
      omega
    · intro h0
      rw [h0] at ht
      have := of_decide_eq_false ht
      omega

theorem pyTupleLt_ok_exists {a b : SearchResult}
    (h : a.1 = b.1 → (a.2 = none ↔ b.2 = none)) : ∃ t, pyTupleLt a b = Except.ok t := by
  rw [pyTupleLt]
  by_cases hab : a.1 = b.1
  · rw [if_pos hab]
    have h2 := h hab
    cases ha : a.2 with
    | none =>
      cases hb : b.2 with
      | none => exact ⟨false, rfl⟩
      | some q =>
        rw [ha, hb] at h2
        simp at h2
    | some p =>
      cases hb : b.2 with
      | none =>
        rw [ha, hb] at h2
        simp at h2
      | some q => exact ⟨vecPairLt p q, rfl⟩
  · rw [if_neg hab]
    exact ⟨decide (a.1 < b.1), rfl⟩

theorem pyMinFold_spec :
    ∀ (rest : List SearchResult) (best r : SearchResult),
      rest.foldlM (fun best y => do
        let lt ← pyTupleLt y best
        pure (if lt then y else best)) best = Except.ok r →
      (r = best ∨ r ∈ rest) ∧ r.1 ≤ best.1 ∧ ∀ y ∈ rest, r.1 ≤ y.1 := by
  intro rest
  induction rest with
  | nil =>
    intro best r h
    have hbr : best = r := by injection h
    subst hbr
    exact ⟨Or.inl rfl, le_refl _, fun y hy => absurd hy (List.not_mem_nil _)⟩
  | cons y rest ih =>
    intro best r h
    simp only [List.foldlM_cons] at h
    cases hcmp : pyTupleLt y best with
    | error e =>
      rw [hcmp, except_bind_error, except_bind_error] at h
      exact absurd h (by simp)
    | ok lt =>
      rw [hcmp, except_bind_ok, except_pure_eq, except_bind_ok] at h
      have hle := pyTupleLt_ok_le hcmp
      cases hlt : lt with
      | true =>
        rw [hlt, if_pos rfl] at h
        obtain ⟨hmem, hr1, hrall⟩ := ih y r h
        have hyb : y.1 ≤ best.1 := hle.1 hlt
        refine ⟨?_, le_trans hr1 hyb, ?_⟩
        · rcases hmem with rfl | hm
          · exact Or.inr (List.mem_cons_self _ _)
          · exact Or.inr (List.mem_cons_of_mem _ hm)
        · intro z hz
          rcases List.mem_cons.mp hz with rfl | hz'
          · exact hr1
          · exact hrall z hz'
      | false =>
        rw [hlt, if_neg (by simp)] at h
        obtain ⟨hmem, hr1, hrall⟩ := ih best r h
        have hby : best.1 ≤ y.1 := hle.2 hlt
        refine ⟨?_, hr1, ?_⟩
        · rcases hmem with rfl | hm
          · exact Or.inl rfl
          · exact Or.inr (List.mem_cons_of_mem _ hm)
        · intro z hz
          rcases List.mem_cons.mp hz with rfl | hz'
          · exact le_trans hr1 hby
          · exact hrall z hz'

theorem pyMin_ok_spec {xs : List SearchResult} {r : SearchResult}
    (h : pyMin xs = Except.ok r) : r ∈ xs ∧ ∀ y ∈ xs, r.1 ≤ y.1 := by
  cases xs with
  | nil => exact absurd h (by rw [pyMin]; simp)
  | cons x rest =>
    rw [pyMin] at h
    obtain ⟨hmem, hr1, hrall⟩ := pyMinFold_spec rest x r h
    constructor
    · rcases hmem with rfl | hm
      · exact List.mem_cons_self _ _
      · exact List.mem_cons_of_mem _ hm
    · intro y hy
      rcases List.mem_cons.mp hy with rfl | hy'
      · exact hr1
      · exact hrall y hy'

theorem pyMinFold_ok :
    ∀ (rest : List SearchResult) (best : SearchResult),
      (∀ y ∈ rest, y.1 = best.1 → (y.2 = none ↔ best.2 = none)) →
      (∀ y ∈ rest, ∀ z ∈ rest, y.1 = z.1 → (y.2 = none ↔ z.2 = none)) →
      ∃ r, rest.foldlM (fun best y => do
        let lt ← pyTupleLt y best
        pure (if lt then y else best)) best = Except.ok r := by
  intro rest
  induction rest with
  | nil =>
    intro best _ _
    exact ⟨best, rfl⟩
  | cons y rest ih =>
    intro best hb hin
    obtain ⟨t, ht⟩ := pyTupleLt_ok_exists (hb y (List.mem_cons_self _ _))
    have hbest' : ∀ z ∈ rest, z.1 = (if t then y else best).1 →
        (z.2 = none ↔ (if t then y else best).2 = none) := by
      intro z hz
      cases t with
      | true =>
        simp only [if_pos rfl]
        exact hin z (List.mem_cons_of_mem _ hz) y (List.mem_cons_self _ _)
      | false =>
        rw [if_neg (by decide)]
        exact hb z (List.mem_cons_of_mem _ hz)
    have hin' : ∀ y' ∈ rest, ∀ z ∈ rest, y'.1 = z.1 → (y'.2 = none ↔ z.2 = none) :=
      fun y' hy' z hz => hin y' (List.mem_cons_of_mem _ hy') z (List.mem_cons_of_mem _ hz)
    obtain ⟨r, hr⟩ := ih (if t then y else best) hbest' hin'
    refine ⟨r, ?_⟩
    simp only [List.foldlM_cons]
    rw [ht, except_bind_ok, except_pure_eq, except_bind_ok]
    exact hr

/-- Claim C3 (amended): on every non-empty list of round results in which no two
entries tie on distance with one being the no-pair sentinel and the other a
real pair, the Python `min` reduction used by `find_min_hamming_distance_across_groups`
and by the round-level reduction of `find_min_hamming_using_LSH` succeeds and
returns a result whose distance is the smallest distance among the inputs. -/
theorem min_reduction_ok (xs : List SearchResult) (hne : xs ≠ [])
    (hcompat : ∀ a ∈ xs, ∀ b ∈ xs, a.1 = b.1 → (a.2 = none ↔ b.2 = none)) :
    ∃ r, pyMin xs = Except.ok r ∧ r ∈ xs ∧ ∀ y ∈ xs, r.1 ≤ y.1 := by
  cases xs with
  | nil => exact absurd rfl hne
  | cons x rest =>
    obtain ⟨r, hr⟩ := pyMinFold_ok rest x
      (fun y hy => hcompat y (List.mem_cons_of_mem _ hy) x (List.mem_cons_self _ _))
      (fun y hy z hz => hcompat y (List.mem_cons_of_mem _ hy) z (List.mem_cons_of_mem _ hz))
    have hr' : pyMin (x :: rest) = Except.ok r := by
      rw [pyMin]
      exact hr
    exact ⟨r, hr', pyMin_ok_spec hr'⟩

theorem min_reduction_ok_witness :
    ∃ r, pyMin [(2, some ([0], [1])), (3, none)] = Except.ok r ∧
      r ∈ [(2, some ([0], [1])), (3, none)] ∧
      ∀ y ∈ ([(2, some ([0], [1])), (3, none)] : List SearchResult), r.1 ≤ y.1 :=
  min_reduction_ok [(2, some ([0], [1])), (3, none)] (by simp) (by decide)

/-- Counterexample to Claim C3 as stated: the minimum-reduction of
`find_min_hamming_distance_across_groups` raises a Python TypeError when a
sentinel and a pair-bearing round result tie on distance (here both 5, produced
by groups of vector lengths 5 and 4), and raises a ValueError on an empty list
of groups. -/
theorem min_reduction_raises :
    find_min_hamming_distance_across_groups [[[0, 0, 0, 0, 0], [1, 1, 1, 1, 1]], [[0, 0, 0, 0]]]
        [] =
      Except.error "TypeError: '<' not supported between instances of 'NoneType' and 'tuple'" ∧
    find_min_hamming_distance_across_groups [] [] =
      Except.error "ValueError: min() arg is an empty sequence" :=
  ⟨rfl, rfl⟩

/-! ### Decomposition lemmas for the aggregator -/

theorem mapM_ok_mem {α β : Type} (f : α → Except String β) :
    ∀ (l : List α) (ys : List β), l.mapM f = Except.ok ys →
      ∀ y ∈ ys, ∃ x ∈ l, f x = Except.ok y := by
  intro l
  induction l with
  | nil =>
    intro ys h y hy
    rw [List.mapM_nil] at h
    have hnil : ([] : List β) = ys := by
      have h' : (Except.ok [] : Except String (List β)) = Except.ok ys := h
      injection h'
    rw [← hnil] at hy
    exact absurd hy (List.not_mem_nil y)
  | cons x l ih =>
    intro ys h y hy
    rw [List.mapM_cons] at h
    cases hfx : f x with
    | error e =>
      rw [hfx, except_bind_error] at h
      exact absurd h (by simp)
    | ok b =>
      rw [hfx, except_bind_ok] at h
      cases hml : l.mapM f with
      | error e =>
        rw [hml, except_bind_error] at h
        exact absurd h (by simp)
      | ok ys' =>
        rw [hml, except_bind_ok, except_pure_eq] at h
        have hys : b :: ys' = ys := by injection h
        rw [← hys] at hy
        rcases List.mem_cons.mp hy with rfl | hy'
        · exact ⟨x, List.mem_cons_self _ _, hfx⟩
        · obtain ⟨x', hx', hfx'⟩ := ih ys' hml y hy'
          exact ⟨x', List.mem_cons_of_mem _ hx', hfx'⟩

theorem sublist_getD_single {l1 l2 : List Vec} (h : l1.Sublist l2) :
    ∀ j, j < l1.length → ∃ j', j' < l2.length ∧ l2.getD j' [] = l1.getD j [] := by
  induction h with
  | slnil =>
    intro j hj
    simp at hj
  | cons a h ih =>
    intro j hj
    obtain ⟨j', h1, h2⟩ := ih j hj
    refine ⟨j' + 1, ?_, ?_⟩
    · rw [List.length_cons]
      omega
    · rw [List.getD_cons_succ]
      exact h2
  | cons₂ a h ih =>
    intro j hj
    cases j with
    | zero => exact ⟨0, by simp, by rw [List.getD_cons_zero, List.getD_cons_zero]⟩
    | succ j0 =>
      obtain ⟨j', h1, h2⟩ := ih j0 (by simpa using hj)
      refine ⟨j' + 1, ?_, ?_⟩
      · rw [List.length_cons]
        omega
      · rw [List.getD_cons_succ, List.getD_cons_succ]
        exact h2

theorem sublist_getD_pair {l1 l2 : List Vec} (h : l1.Sublist l2) :
    ∀ i j, i < j → j < l1.length →
      ∃ i' j', i' < j' ∧ j' < l2.length ∧
        l2.getD i' [] = l1.getD i [] ∧ l2.getD j' [] = l1.getD j [] := by
  induction h with
  | slnil =>
    intro i j _ hj
    simp at hj
  | cons a h ih =>
    intro i j hij hj
    obtain ⟨i', j', h1, h2, h3, h4⟩ := ih i j hij hj
    refine ⟨i' + 1, j' + 1, by omega, ?_, ?_, ?_⟩
    · rw [List.length_cons]
      omega
    · rw [List.getD_cons_succ]
      exact h3
    · rw [List.getD_cons_succ]
      exact h4
  | cons₂ a h ih =>
    intro i j hij hj
    cases i with
    | zero =>
      cases j with
      | zero => omega
      | succ j0 =>
        obtain ⟨j', h1, h2⟩ := sublist_getD_single h j0 (by simpa using hj)
        refine ⟨0, j' + 1, by omega, ?_, ?_, ?_⟩
        · rw [List.length_cons]
          omega
        · rw [List.getD_cons_zero, List.getD_cons_zero]
        · rw [List.getD_cons_succ, List.getD_cons_succ]
          exact h2
    | succ i0 =>
      cases j with
      | zero => omega
      | succ j0 =>
        obtain ⟨i', j', h1, h2, h3, h4⟩ := ih i0 j0 (by omega) (by simpa using hj)
        refine ⟨i' + 1, j' + 1, by omega, ?_, ?_, ?_⟩
        · rw [List.length_cons]
          omega
        · rw [List.getD_cons_succ, List.getD_cons_succ]
          exact h3
        · rw [List.getD_cons_succ, List.getD_cons_succ]
          exact h4

theorem in_group_cases {g : List Vec} {indices : List Nat} {n : Nat} {r : SearchResult}
    (hne : g ≠ []) (hlen : ∀ x ∈ g, x.length = n)
    (h : find_min_hamming_distance_in_group g indices = Except.ok r) :
    r = (n + 1, none) ∨
      ∃ i j, i < j ∧ j < g.length ∧
        r = (hamming (g.getD i []) (g.getD j []), some (g.getD i [], g.getD j [])) := by
  obtain ⟨v0, rest, rfl⟩ : ∃ v0 rest, g = v0 :: rest := by
    cases g with
    | nil => exact absurd rfl hne
    | cons a l => exact ⟨a, l, rfl⟩
  rw [in_group_eq v0 rest indices n hlen] at h
  have hr : ((foldMin (pairScore (v0 :: rest)) (n + 1, none)
      (qualifying (v0 :: rest) indices)).1,
      (foldMin (pairScore (v0 :: rest)) (n + 1, none)
        (qualifying (v0 :: rest) indices)).2.map (mapPair (v0 :: rest))) = r := by
    injection h
  rcases foldMin_spec (pairScore (v0 :: rest)) (qualifying (v0 :: rest) indices)
      (n + 1, none) with ⟨hfm, _⟩ | ⟨l1, p, l2, hdec, hfm, _, _, _⟩
  · rw [hfm] at hr
    exact Or.inl hr.symm
  · obtain ⟨i, j⟩ := p
    have hpmem : ((i, j) : Nat × Nat) ∈ qualifying (v0 :: rest) indices := by
      rw [hdec]
      exact List.mem_append_right _ (List.mem_cons_self _ _)
    rw [qualifying, List.mem_filter] at hpmem
    have hij := mem_pairIndices.mp hpmem.1
    rw [hfm] at hr
    exact Or.inr ⟨i, j, hij.1, hij.2, hr.symm⟩

/-- Claim C1: for every collection of at least two equal-length vectors and
every sequence of random draws, whenever both searches return, the distance of
the Aggregate Result of `find_min_hamming_using_LSH` is at least the distance
returned by `find_min_hamming_distance`. -/
theorem lsh_result_ge_exact (v : List Vec) (n : Nat) (draws : List (List Nat × List Nat))
    (hlen : ∀ x ∈ v, x.length = n) (hm : 2 ≤ v.length)
    (d : Nat) (p : Option (Vec × Vec)) (r : SearchResult)
    (hex : find_min_hamming_distance v = Except.ok (d, p))
    (hlsh : find_min_hamming_using_LSH v draws = Except.ok r) :
    d ≤ r.1 := by
  obtain ⟨v0, rest, rfl⟩ : ∃ v0 rest, v = v0 :: rest := by
    cases v with
    | nil => simp at hm
    | cons a l => exact ⟨a, l, rfl⟩
  -- characterize the exact distance
  rw [find_min_eq v0 rest n hlen] at hex
  have hd : (foldMin (pairScore (v0 :: rest)) (n + 1, none)
      (pairIndices (v0 :: rest).length)).1 = d := by
    have h' := hex
    injection h' with h''
    exact congrArg Prod.fst h''
  have hd_le_pairs : ∀ i' j', i' < j' → j' < (v0 :: rest).length →
      d ≤ hamming ((v0 :: rest).getD i' []) ((v0 :: rest).getD j' []) := by
    intro i' j' h1 h2
    rw [← hd]
    exact foldMin_fst_le_score _ _ _ _ (mem_pairIndices.mpr ⟨h1, h2⟩)
  have hd_le_n : d ≤ n := by
    have h01 := hd_le_pairs 0 1 (by omega)
      (by rw [List.length_cons] at hm ⊢; omega)
    have hb := hamming_le_left ((v0 :: rest).getD 0 []) ((v0 :: rest).getD 1 [])
    have h0 : ((v0 :: rest).getD 0 []).length = n := hlen _ (getD_mem_of_lt (by simp))
    rw [h0] at hb
    exact le_trans h01 hb
  -- unfold the aggregator
  rw [find_min_hamming_using_LSH, if_neg (by simp),
    if_neg (by rw [List.length_cons] at hm ⊢; omega)] at hlsh
  by_cases hn0 : ((v0 :: rest).getD 0 []).length = 0
  · rw [if_pos hn0] at hlsh
    exact absurd hlsh (by simp)
  · rw [if_neg hn0] at hlsh
    cases hmapm : draws.mapM (fun dr =>
        find_min_hamming_distance_across_groups
          (classify_vectors_by_random_bits (v0 :: rest) dr.1) dr.2) with
    | error e =>
      rw [hmapm, except_bind_error] at hlsh
      exact absurd hlsh (by simp)
    | ok results =>
      rw [hmapm, except_bind_ok] at hlsh
      have hrmem : r ∈ results := (pyMin_ok_spec hlsh).1
      obtain ⟨dr, _, hround⟩ := mapM_ok_mem _ draws results hmapm r hrmem
      rw [find_min_hamming_distance_across_groups] at hround
      cases hmv : (classify_vectors_by_random_bits (v0 :: rest) dr.1).mapM
          (fun group => find_min_hamming_distance_in_group group dr.2) with
      | error e =>
        rw [hmv, except_bind_error] at hround
        exact absurd hround (by simp)
      | ok min_values =>
        rw [hmv, except_bind_ok] at hround
        have hrmv : r ∈ min_values := (pyMin_ok_spec hround).1
        obtain ⟨g, hg, hgr⟩ := mapM_ok_mem _ _ min_values hmv r hrmv
        obtain ⟨hgne, hgsub⟩ := classify_group_sublist (v0 :: rest) dr.1 g hg
        have hglen : ∀ x ∈ g, x.length = n := fun x hx => hlen x (hgsub.subset hx)
        rcases in_group_cases hgne hglen hgr with hsent | ⟨i, j, hij, hj, hpair⟩
        · rw [hsent]
          simp only
          omega
        · obtain ⟨i', j', h1, h2, h3, h4⟩ := sublist_getD_pair hgsub i j hij hj
          have := hd_le_pairs i' j' h1 h2
          rw [h3, h4] at this
          rw [hpair]
          exact this

theorem lsh_result_ge_exact_witness :
    (1 : Nat) ≤ (((3 : Nat), (none : Option (Vec × Vec))) : SearchResult).1 :=
  lsh_result_ge_exact [[0, 1], [1, 1]] 2 [([0], [0])] (by decide) (by decide)
    1 (some ([0, 1], [1, 1])) (3, none) rfl rfl

/-! ### Claims C4 and C10 -/

/-- Claim C4: the logarithm-based sample-width formulas in
`find_min_hamming_using_LSH` are unguarded: an empty collection, a
single-vector collection (where `log2(m)` is zero), and a zero vector length
each make the width computation fail with the corresponding Python arithmetic
fault instead of a descriptive validation error. -/
theorem lsh_degenerate_unguarded :
    (∀ draws, find_min_hamming_using_LSH [] draws =
      Except.error "ValueError: math domain error") ∧
    (∀ (v : Vec) draws, find_min_hamming_using_LSH [v] draws =
      Except.error "ZeroDivisionError: float division by zero") ∧
    (∀ (w : Vec) (vs : List Vec) draws, find_min_hamming_using_LSH ([] :: w :: vs) draws =
      Except.error "ValueError: math domain error") := by
  refine ⟨fun draws => rfl, fun v draws => rfl, fun w vs draws => ?_⟩
  have hc : ((([] : Vec) :: w :: vs).getD 0 []).length = 0 := rfl
  rw [find_min_hamming_using_LSH, if_neg (by simp),
    if_neg (by rw [List.length_cons, List.length_cons]; omega), if_pos hc]

theorem foldl_count_eq_countP :
    ∀ (l : List (Nat × Nat)) (c : Nat),
      l.foldl (fun c t => c + (if t.1 = t.2 then 1 else 0)) c =
        c + l.countP (fun t => t.1 == t.2) := by
  intro l
  induction l with
  | nil =>
    intro c
    simp
  | cons t l ih =>
    intro c
    rw [List.foldl_cons, ih, List.countP_cons]
    by_cases h : t.1 = t.2
    · have hb : (t.1 == t.2) = true := beq_iff_eq.mpr h
      rw [if_pos h, if_pos hb]
      omega
    · have hb : ¬((t.1 == t.2) = true) := by simp [h]
      rw [if_neg h, if_neg hb]
      omega

theorem foldl_add_eq_sum :
    ∀ (l : List (Nat × Nat)) (s : ℚ),
      l.foldl (fun s t => s + ((t.2 : ℚ) - (t.1 : ℚ)) / (t.1 : ℚ)) s =
        s + (l.map (fun t => ((t.2 : ℚ) - (t.1 : ℚ)) / (t.1 : ℚ))).sum := by
  intro l
  induction l with
  | nil =>
    intro s
    simp
  | cons t l ih =>
    intro s
    rw [List.foldl_cons, ih, List.map_cons, List.sum_cons]
    ring

/-- Claim C10: for a positive trial count, the harness reports a hit rate equal
to the fraction of trials with equal exact and approximate distances times 100
(hence in `[0, 100]`), and an average relative error that is the mean of
`(approx - exact) / exact` over exactly the trials with nonzero exact distance
(reported as a percentage); zero-exact trials are excluded from the error
average but still count toward the hit rate. -/
theorem compare_result_spec (trials : List (Nat × Nat)) (ht : 0 < trials.length) :
    (compare_result trials).1 =
      (trials.countP (fun t => t.1 == t.2) : ℚ) / (trials.length : ℚ) * 100 ∧
    0 ≤ (compare_result trials).1 ∧ (compare_result trials).1 ≤ 100 ∧
    (trials.filter (fun t => t.1 != 0) ≠ [] →
      (compare_result trials).2 =
        ((trials.filter (fun t => t.1 != 0)).map
            (fun t => ((t.2 : ℚ) - (t.1 : ℚ)) / (t.1 : ℚ))).sum /
          ((trials.filter (fun t => t.1 != 0)).length : ℚ) * 100) ∧
    (trials.filter (fun t => t.1 != 0) = [] → (compare_result trials).2 = 0) := by
  have h1 : (compare_result trials).1 =
      (trials.countP (fun t => t.1 == t.2) : ℚ) / (trials.length : ℚ) * 100 := by
    simp only [compare_result]
    rw [foldl_count_eq_countP]
    simp
  refine ⟨h1, ?_, ?_, ?_, ?_⟩
  · rw [h1]
    positivity
  · rw [h1]
    have hle : (trials.countP (fun t => t.1 == t.2) : ℚ) ≤ (trials.length : ℚ) :=
      Nat.cast_le.mpr (List.countP_le_length _)
    have hpos : (0 : ℚ) < (trials.length : ℚ) := by exact_mod_cast ht
    have hdiv : (trials.countP (fun t => t.1 == t.2) : ℚ) / (trials.length : ℚ) ≤ 1 :=
      (div_le_one hpos).mpr hle
    have h100 := mul_le_mul_of_nonneg_right hdiv (by norm_num : (0 : ℚ) ≤ 100)
    rw [one_mul] at h100
    exact h100
  · intro hne
    have hlen : (trials.filter (fun t => t.1 != 0)).length ≠ 0 := by
      intro h0
      exact hne (List.length_eq_zero.mp h0)
    simp only [compare_result]
    rw [if_pos hlen, foldl_add_eq_sum]
    rw [zero_add]
  · intro hnil
    have hlen : (trials.filter (fun t => t.1 != 0)).length = 0 := by
      rw [hnil]
      rfl
    simp only [compare_result]
    rw [if_neg (by rw [hlen]; exact fun h => h rfl)]

theorem compare_result_spec_witness :
    0 ≤ (compare_result [(1, 1), (2, 3), (0, 0)]).1 ∧
      (compare_result [(1, 1), (2, 3), (0, 0)]).1 ≤ 100 :=
  ⟨(compare_result_spec [(1, 1), (2, 3), (0, 0)] (by decide)).2.1,
   (compare_result_spec [(1, 1), (2, 3), (0, 0)] (by decide)).2.2.1⟩

end MinHamming

